import Mathlib

/-!
Verification of the deployment/pipeline resolution engine of a small
FastAPI bridge for Jira and Bitbucket Cloud (files `main.py`,
`bbclient.py`, `pipeline_dashboard.py`).

The Python code manipulates JSON-shaped dictionaries.  We embed JSON
values as the inductive type `JVal`, Python truthiness as `truthy`, and
each Python function of the core as a Lean function over `JVal`.
Network calls are modelled by oracle functions passed as parameters:
a call returning HTTP 200 with body `j` is `some j`, a non-success
response is `none`.
-/

/-- A JSON value as manipulated by the Python code (dictionaries with
string keys, strings, numbers, booleans, arrays, null). -/
inductive JVal where
  | null : JVal
  | bool (b : Bool) : JVal
  | num (n : Int) : JVal
  | str (s : String) : JVal
  | obj (fields : List (String × JVal)) : JVal
  | arr (elems : List JVal) : JVal

/-- Python truthiness of a JSON value: `None`, `False`, `0`, `""`,
empty dict and empty list are falsy, everything else truthy. -/
def truthy : JVal → Bool
  | .null => false
  | .bool b => b
  | .num n => n != 0
  | .str s => s != ""
  | .obj fields => !fields.isEmpty
  | .arr elems => !elems.isEmpty

/-- Association-list lookup with Python `dict` semantics (first match;
Python dicts have unique keys, and all our constructions keep keys
unique). -/
def lookupA {α : Type} : List (String × α) → String → Option α
  | [], _ => none
  | (k, v) :: rest, key => if k = key then some v else lookupA rest key

/-- Association-list update with Python `dict.__setitem__` semantics:
an existing key keeps its position, a new key is appended. -/
def insertA {α : Type} : List (String × α) → String → α → List (String × α)
  | [], key, v => [(key, v)]
  | (k, w) :: rest, key, v =>
      if k = key then (k, v) :: rest else (k, w) :: insertA rest key v

/-- `d.get(k)` on a dict, `None` when the key is absent or the value is
not a dict.  (The Python code guards its `.get` chains either with
`isinstance` checks or with `{}` defaults, so reading a non-dict as
"no fields" matches every reachable call site.) -/
def jget : JVal → String → JVal
  | .obj fields, k => (lookupA fields k).getD .null
  | _, _ => .null

/-- `d.get(k)` distinguishing an absent key (`none`) from a present
value; used where the Python code passes a non-`None` default. -/
def jgetOpt : JVal → String → Option JVal
  | .obj fields, k => lookupA fields k
  | _, _ => none

/-- Python `a or b`: `a` when truthy, else `b`. -/
def jOr (a b : JVal) : JVal := if truthy a then a else b

/-- The string content of a value, `""` for anything that is not a
string (timestamp fields are ISO-8601 strings in the upstream API; a
non-string in such a field would make the Python comparison raise, and
is treated as absent here). -/
def jstrOrEmpty : JVal → String
  | .str s => s
  | _ => ""

/-- Whether a value is a string (`isinstance(x, str)`). -/
def JVal.isStr : JVal → Bool
  | .str _ => true
  | _ => false

/-! ## Commit extractor (`_commit_hash_from_deployment`, main.py 286-320) -/

/-- Walk a field path: `node = item; for k in p: node = node.get(k)`,
with the code's `isinstance(node, dict)` guard (a non-dict yields
`None`). -/
def pathVal (item : JVal) (p : List String) : JVal := p.foldl jget item

/-- The loop's success test: `if node and isinstance(node, str): return node`
(a non-empty string). -/
def strHit : JVal → Option String
  | .str s => if s = "" then none else some s
  | _ => none

/-- The fixed list of field paths tried by `_commit_hash_from_deployment`
(main.py 289-296). -/
def pathsList : List (List String) :=
  [["commit", "hash"],
   ["commit"],
   ["deployment", "commit", "hash"],
   ["deployment", "commit"],
   ["pull_request", "merge_commit", "hash"],
   ["target", "commit", "hash"]]

/-- First path whose value is a non-empty string (main.py 297-305). -/
def tryPaths (item : JVal) : Option String :=
  pathsList.findSome? fun p => strHit (pathVal item p)

/-- `item.get("revision") or item.get("source", {}).get("commit", {}).get("hash")`
(main.py 309). -/
def altOf (item : JVal) : JVal :=
  jOr (jget item "revision") (jget (jget (jget item "source") "commit") "hash")

/-- `item.get("links", {}).get("commit", {}) or item.get("links", {}).get("html", {})`
(main.py 314-316). -/
def chosenLinks (item : JVal) : JVal :=
  let lc := jget (jget item "links") "commit"
  if truthy lc then lc else jget (jget item "links") "html"

/-- The separator `"/commit/"` as a character list. -/
def commitSep : List Char := ['/', 'c', 'o', 'm', 'm', 'i', 't', '/']

/-- Python `sep in s` (contiguous substring occurrence). -/
def containsSeq (sep : List Char) : List Char → Bool
  | [] => sep.isEmpty
  | c :: rest => sep.isPrefixOf (c :: rest) || containsSeq sep rest

/-- Python `s.rstrip("/")`: remove trailing slashes. -/
def rstripSlash (l : List Char) : List Char :=
  (l.reverse.dropWhile (· == '/')).reverse

/-- One step of Python `s.split("/commit/")`: leftmost non-overlapping
matches, with explicit fuel (the list length bounds the recursion). -/
def splitCommitAux : Nat → List Char → List Char → List (List Char)
  | _, acc, [] => [acc.reverse]
  | 0, acc, l => [acc.reverse ++ l]
  | fuel + 1, acc, c :: rest =>
      if commitSep.isPrefixOf (c :: rest) then
        acc.reverse :: splitCommitAux fuel [] (rest.drop 7)
      else
        splitCommitAux fuel (c :: acc) rest

/-- Python `s.split("/commit/")`. -/
def pySplitCommit (l : List Char) : List (List Char) :=
  splitCommitAux l.length [] l

/-- `href.rstrip("/").split("/commit/")[-1]` (main.py 318). -/
def hrefExtract (s : String) : String :=
  String.mk ((pySplitCommit (rstripSlash s.toList)).getLastD [])

/-- Best-effort extraction of a commit hash from a deployment/pipeline
object, translated from `_commit_hash_from_deployment` (main.py
286-320): the six field paths in order, then the `revision` /
`source.commit.hash` fallback (returned whenever it is a string, even
empty), then the `links` URL parse. -/
def commitHashFromDeployment (item : JVal) : Option String :=
  match tryPaths item with
  | some s => some s
  | none =>
    match altOf item with
    | .str s => some s
    | _ =>
      match jget (chosenLinks item) "href" with
      | .str s =>
          if s != "" && containsSeq commitSep s.toList then
            some (hrefExtract s)
          else none
      | _ => none

/-! ## String comparison (Python lexicographic order on code points) -/

/-- Python `<` on strings, as a Boolean on character lists:
lexicographic by code point, a proper initial segment is smaller. -/
def charListLt : List Char → List Char → Bool
  | [], [] => false
  | [], _ :: _ => true
  | _ :: _, [] => false
  | a :: as, b :: bs => a < b || (a = b && charListLt as bs)

/-- Python `a < b` on strings. -/
def tsLt (a b : String) : Bool := charListLt a.toList b.toList

/-- Python `a <= b` on strings (total order: `a <= b` iff not `b < a`). -/
def tsLe (a b : String) : Bool := !(tsLt b a)

/-! ## Environment resolver (main.py 348-383)

The `/deployments` handler walks one page of deployment records and
keeps, per resolved environment name, a running "latest" record.  The
environment-uuid secondary lookup (main.py 358-370) goes through a
per-pass cache in front of a deterministic endpoint, so its observable
result is a function from uuid to optional resolved name; we pass that
function (`el`) directly. -/

/-- Python `u.strip("\x7b\x7d")`: remove leading and trailing braces
(used on environment and deployment uuids before building detail
URLs). -/
def stripBraces (s : String) : String :=
  String.mk (((s.toList.dropWhile fun c => c == '{' || c == '}').reverse.dropWhile
    fun c => c == '{' || c == '}').reverse)

/-- Resolve a record's environment name (main.py 349-373): a dict
environment uses `name` or `environment_type`; a plain string is used
as is; a dict with neither falls back to resolving its `uuid` through
`el`; anything else (or a falsy result) skips the record. -/
def envNameOf (el : String → Option String) (d : JVal) : Option String :=
  let envObj := jget d "environment"
  let first : JVal :=
    match envObj with
    | .obj _ => jOr (jget envObj "name") (jget envObj "environment_type")
    | .str s => .str s
    | _ => .null
  let second : JVal :=
    if truthy first then first
    else
      match envObj with
      | .obj _ =>
          match jget envObj "uuid" with
          | .str u =>
              if u = "" then .null
              else match el (stripBraces u) with
                   | some n => .str n
                   | none => .null
          | _ => .null
      | _ => first
  match second with
  | .str s => if s = "" then none else some s
  | _ => none

/-- The candidate timestamp of a record (main.py 375-381):
`d.get("update_time") or d.get("updated_on") or d.get("completed_on")
or d.get("created_on") or ""`. -/
def candTs (d : JVal) : String :=
  jstrOrEmpty (jOr (jget d "update_time")
    (jOr (jget d "updated_on") (jOr (jget d "completed_on") (jget d "created_on"))))

/-- The stored side of the comparison (main.py 382):
`latest_by_env[env_name].get("update_time") or ""` — note that only
`update_time` of the stored record is read. -/
def updTime (d : JVal) : String := jstrOrEmpty (jget d "update_time")

/-- One step of the latest-per-environment fold (main.py 348-383). -/
def stepLatest (el : String → Option String) (m : List (String × JVal)) (d : JVal) :
    List (String × JVal) :=
  match envNameOf el d with
  | none => m
  | some e =>
    match lookupA m e with
    | none => insertA m e d
    | some cur => if tsLt (updTime cur) (candTs d) then insertA m e d else m

/-- The latest-per-environment resolver: fold the step over the records
in input order (main.py 348-383). -/
def resolveLatest (el : String → Option String) (records : List JVal) :
    List (String × JVal) :=
  records.foldl (stepLatest el) []

/-! ## Paginator (`BitbucketClient._get_paginated`, bbclient.py 54-69)

The generator walks `next` links.  We embed the sequence of successful
page responses reachable from the start path as a list: element `i` is
the response to the `i`-th fetch, and its `next` flag says whether a
next link is present (the `while url` loop stops on an absent — or
empty — link).  The generator counts yielded items and returns as soon
as an item beyond `max_items` would be yielded. -/

/-- One page response: its `values` list and whether a `next` link is
present. -/
structure PageResp where
  values : List JVal
  next : Bool

/-- Items yielded by `_get_paginated` over the fetched pages, starting
from `count` already-yielded items (bbclient.py 54-69). -/
def paginate (maxItems : Option Nat) : List PageResp → Nat → List JVal
  | [], _ => []
  | pg :: rest, count =>
    match maxItems with
    | none => pg.values ++ (if pg.next then paginate none rest 0 else [])
    | some m =>
      let ys := pg.values.take (m - count)
      if m - count < pg.values.length then ys
      else ys ++ (if pg.next then paginate (some m) rest (count + pg.values.length) else [])

/-- `BitbucketClient.get_deployment_statuses` (bbclient.py 91-100):
all pages of the per-deployment status sub-collection, no item cap. -/
def getDeploymentStatuses (chain : List PageResp) : List JVal :=
  paginate none chain 0

/-- Modelled from the spec: no code in the repository consumes status
events, so the notion of a "successful" status event is taken from the
spec (§6: status events carry a `state` string): an event whose
`state` is the string `"SUCCESSFUL"` (case kept as delivered by the
upstream API). -/
def isSuccessfulStatus (s : JVal) : Bool :=
  match jget s "state" with
  | .str t => t == "SUCCESSFUL"
  | _ => false

/-! ## Commit enricher (`_enrich_commit`, main.py 436-460) -/

/-- The per-commit enrichment result
(`commit_cache[commit_hash] = dict(message=..., date=..., tag=...)`). -/
structure CommitInfo where
  message : JVal
  date : JVal
  tag : JVal

/-- The `message` part of a successful commit-detail response
(main.py 446-449): `j.get("message")` — the full message, unmodified. -/
def msgResult (fc : String → Option JVal) (h : String) : JVal :=
  match fc h with
  | some j => jget j "message"
  | none => .null

/-- The `date` part of a successful commit-detail response
(main.py 449): `j.get("date") or j.get("author", \x7b\x7d).get("date")`. -/
def dateResult (fc : String → Option JVal) (h : String) : JVal :=
  match fc h with
  | some j => jOr (jget j "date") (jget (jget j "author") "date")
  | none => .null

/-- The tag part of the enrichment (main.py 451-458): on a successful
tag search, the `name` of the first returned tag, if any. -/
def tagResult (ft : String → Option (List JVal)) (h : String) : JVal :=
  match ft h with
  | some (v :: _) => jget v "name"
  | some [] => .null
  | none => .null

/-- `_enrich_commit` (main.py 439-460): return the cache unchanged on a
hit; otherwise perform the commit-detail lookup and the tag search
(each failure yielding an absent field) and cache the triple —
including a fully absent one. -/
def enrichCommit (fc : String → Option JVal) (ft : String → Option (List JVal))
    (cache : List (String × CommitInfo)) (h : String) : List (String × CommitInfo) :=
  if (lookupA cache h).isSome then cache
  else insertA cache h ⟨msgResult fc h, dateResult fc h, tagResult ft h⟩

/-- The sequential enrichment loop (main.py 495-496) over the collected
hashes, also returning the list of hashes for which an upstream fetch
pair (commit detail + tag search) was actually issued (cache misses). -/
def enrichList (fc : String → Option JVal) (ft : String → Option (List JVal)) :
    List (String × CommitInfo) → List String → List (String × CommitInfo) × List String
  | cache, [] => (cache, [])
  | cache, h :: hs =>
    if (lookupA cache h).isSome then enrichList fc ft cache hs
    else
      ((enrichList fc ft (enrichCommit fc ft cache h) hs).1,
       h :: (enrichList fc ft (enrichCommit fc ft cache h) hs).2)

/-- Python `(c.get("message") or "").split("\n")[0]` — the first line of
a commit message, as computed by the `/bitbucket-commits` listing
endpoint (main.py 265); the enricher does not apply it. -/
def firstLine (s : String) : String :=
  String.mk (s.toList.takeWhile (· ≠ '\n'))

/-! ## Order and association-list lemmas -/

theorem charListLt_trans : ∀ {x y z : List Char},
    charListLt x y = true → charListLt y z = true → charListLt x z = true
  | [], [], _ :: _, h1, _ => by simp [charListLt] at h1
  | [], _ :: _, _ :: _, _, _ => by simp [charListLt]
  | [], _, [], _, h2 => by cases ‹List Char› <;> simp [charListLt] at h2
  | _ :: _, [], _, h1, _ => by simp [charListLt] at h1
  | _ :: _, _ :: _, [], _, h2 => by simp [charListLt] at h2
  | a :: as, b :: bs, c :: cs, h1, h2 => by
      simp only [charListLt, Bool.or_eq_true, Bool.and_eq_true, decide_eq_true_eq] at h1 h2 ⊢
      rcases h1 with h1 | ⟨rfl, h1⟩
      · rcases h2 with h2 | ⟨rfl, h2⟩
        · exact Or.inl (lt_trans h1 h2)
        · exact Or.inl h1
      · rcases h2 with h2 | ⟨rfl, h2⟩
        · exact Or.inl h2
        · exact Or.inr ⟨rfl, charListLt_trans h1 h2⟩

theorem charListLt_irrefl : ∀ (x : List Char), charListLt x x = false
  | [] => rfl
  | a :: as => by simp [charListLt, charListLt_irrefl as]

theorem tsLt_trans {a b c : String} (h1 : tsLt a b = true) (h2 : tsLt b c = true) :
    tsLt a c = true := charListLt_trans h1 h2

theorem tsLe_refl (a : String) : tsLe a a = true := by
  simp [tsLe, tsLt, charListLt_irrefl]

theorem lookupA_insertA_self {α : Type} :
    ∀ (m : List (String × α)) (k : String) (v : α), lookupA (insertA m k v) k = some v
  | [], k, v => by simp [insertA, lookupA]
  | (k', w) :: rest, k, v => by
      by_cases h : k' = k
      · simp [insertA, h, lookupA]
      · simp [insertA, h, lookupA, lookupA_insertA_self rest k v]

theorem lookupA_insertA_ne {α : Type} :
    ∀ (m : List (String × α)) (k k' : String) (v : α), k' ≠ k →
      lookupA (insertA m k v) k' = lookupA m k'
  | [], k, k', v, h => by simp [insertA, lookupA, if_neg (Ne.symm h)]
  | (k0, w) :: rest, k, k', v, h => by
      by_cases h0 : k0 = k
      · subst h0
        simp [insertA, lookupA, if_neg (Ne.symm h)]
      · simp only [insertA, if_neg h0, lookupA]
        by_cases h1 : k0 = k'
        · simp [h1]
        · simp [h1, lookupA_insertA_ne rest k k' v h]

/-! ## Claim C1 — commit-extractor priority order -/

/-- Claim C1, counterexample: the code's strategy list
(main.py 289-296) contains no `deployable.commit.hash` and no
`release.commit.hash` path, so a record carrying exactly the two fields
named by the claim yields no commit hash at all instead of `"abc123"`. -/
theorem C1_counterexample :
    commitHashFromDeployment
      (.obj [("deployable", .obj [("commit", .obj [("hash", .str "abc123")])]),
             ("release", .obj [("commit", .obj [("hash", .str "zzz999")])])]) = none ∧
    commitHashFromDeployment
      (.obj [("deployable", .obj [("commit", .obj [("hash", .str "abc123")])]),
             ("release", .obj [("commit", .obj [("hash", .str "zzz999")])])]) ≠
      some "abc123" :=
  ⟨rfl, by decide⟩

/-- Claim C1 (amended): the extractor tries, in fixed order,
`commit.hash`, `commit` (string), `deployment.commit.hash`,
`deployment.commit`, `pull_request.merge_commit.hash`,
`target.commit.hash`, then the `revision`/`source.commit.hash`
fallback, then the links-URL parse, stopping at the first non-empty
string; `deployable.commit.hash` and `release.commit.hash` are never
consulted.  In particular the first strategy wins over everything
else, and a record carrying both `commit.hash = "abc123"` and
`deployment.commit.hash = "zzz999"` yields `"abc123"`. -/
theorem C1_extractor_priority :
    (∀ (item : JVal) (s : String), jget (jget item "commit") "hash" = .str s → s ≠ "" →
      commitHashFromDeployment item = some s) ∧
    commitHashFromDeployment
      (.obj [("commit", .obj [("hash", .str "abc123")]),
             ("deployment", .obj [("commit", .obj [("hash", .str "zzz999")])])]) =
      some "abc123" := by
  constructor
  · intro item s h hs
    have h1 : tryPaths item = some s := by
      have hp : pathVal item ["commit", "hash"] = .str s := by
        simpa [pathVal] using h
      simp [tryPaths, pathsList, List.findSome?, hp, strHit, hs]
    simp [commitHashFromDeployment, h1]
  · rfl

/-- Witness for the hypothesised part of `C1_extractor_priority`. -/
theorem C1_witness :
    commitHashFromDeployment (.obj [("commit", .obj [("hash", .str "abc123")])]) =
      some "abc123" :=
  C1_extractor_priority.1 _ "abc123" rfl (by decide)

/-! ## Claim C2 — latest-per-environment selection -/

/-- Invariant of the latest-per-environment fold (main.py 348-383):
any stored record is a processed record of its environment whose
candidate timestamp dominates all processed records of that
environment — provided every processed record carries its candidate
timestamp in `update_time` (the stored side of the code's comparison
reads only `update_time`). -/
theorem resolveLatest_aux (el : String → Option String) :
    ∀ (l processed : List JVal) (m : List (String × JVal)),
      (∀ r ∈ processed ++ l, updTime r = candTs r) →
      (∀ e d, lookupA m e = some d → d ∈ processed ∧ envNameOf el d = some e ∧
         ∀ r ∈ processed, envNameOf el r = some e → tsLe (candTs r) (candTs d) = true) →
      (∀ r ∈ processed, ∀ e, envNameOf el r = some e → (lookupA m e).isSome = true) →
      ∀ e d, lookupA (l.foldl (stepLatest el) m) e = some d →
        d ∈ processed ++ l ∧ envNameOf el d = some e ∧
        ∀ r ∈ processed ++ l, envNameOf el r = some e → tsLe (candTs r) (candTs d) = true
  | [], processed, m, H, Inv1, _Inv2, e, d, hl => by
      simpa using Inv1 e d (by simpa using hl)
  | d0 :: l', processed, m, H, Inv1, Inv2, e, d, hl => by
      have hfold : (d0 :: l').foldl (stepLatest el) m = l'.foldl (stepLatest el) (stepLatest el m d0) := rfl
      rw [hfold] at hl
      have Hmem : ∀ r ∈ (processed ++ [d0]) ++ l', updTime r = candTs r := by
        intro r hr
        apply H
        simpa [List.append_assoc] using hr
      have key := resolveLatest_aux el l' (processed ++ [d0]) (stepLatest el m d0) Hmem ?inv1 ?inv2 e d hl
      case _ =>
        refine ⟨?_, key.2.1, ?_⟩
        · simpa [List.append_assoc] using key.1
        · intro r hr hre
          exact key.2.2 r (by simpa [List.append_assoc] using hr) hre
      case inv1 =>
        intro e' d' hl'
        cases henv : envNameOf el d0 with
        | none =>
            simp only [stepLatest, henv] at hl'
            obtain ⟨hmem, henv', hmax⟩ := Inv1 e' d' hl'
            refine ⟨List.mem_append_left _ hmem, henv', ?_⟩
            intro r hr hre
            rcases List.mem_append.1 hr with hr | hr
            · exact hmax r hr hre
            · rcases List.mem_singleton.1 hr with rfl
              rw [henv] at hre; cases hre
        | some e0 =>
            simp only [stepLatest, henv] at hl'
            cases hcur : lookupA m e0 with
            | none =>
                simp only [hcur] at hl'
                by_cases he : e' = e0
                · subst he
                  rw [lookupA_insertA_self] at hl'
                  obtain rfl : d0 = d' := by injection hl'
                  refine ⟨List.mem_append_right _ (List.mem_singleton.2 rfl), henv, ?_⟩
                  intro r hr hre
                  rcases List.mem_append.1 hr with hr | hr
                  · have := Inv2 r hr e' hre
                    rw [hcur] at this; cases this
                  · rcases List.mem_singleton.1 hr with rfl
                    exact tsLe_refl _
                · rw [lookupA_insertA_ne m e0 e' d0 he] at hl'
                  obtain ⟨hmem, henv', hmax⟩ := Inv1 e' d' hl'
                  refine ⟨List.mem_append_left _ hmem, henv', ?_⟩
                  intro r hr hre
                  rcases List.mem_append.1 hr with hr | hr
                  · exact hmax r hr hre
                  · rcases List.mem_singleton.1 hr with rfl
                    rw [henv] at hre
                    injection hre with hh
                    exact absurd hh.symm he
            | some cur =>
                simp only [hcur] at hl'
                by_cases hlt : tsLt (updTime cur) (candTs d0) = true
                · rw [if_pos hlt] at hl'
                  by_cases he : e' = e0
                  · subst he
                    rw [lookupA_insertA_self] at hl'
                    obtain rfl : d0 = d' := by injection hl'
                    obtain ⟨hmemc, henvc, hmaxc⟩ := Inv1 e' cur hcur
                    have hcur_ts : updTime cur = candTs cur :=
                      H cur (List.mem_append_left _ hmemc)
                    rw [hcur_ts] at hlt
                    refine ⟨List.mem_append_right _ (List.mem_singleton.2 rfl), henv, ?_⟩
                    intro r hr hre
                    rcases List.mem_append.1 hr with hr | hr
                    · have hrc := hmaxc r hr hre
                      -- tsLe (candTs r) (candTs cur), tsLt (candTs cur) (candTs d0)
                      simp only [tsLe, Bool.not_eq_true'] at hrc ⊢
                      cases hdr : tsLt (candTs d0) (candTs r) with
                      | false => rfl
                      | true => exact absurd (tsLt_trans hlt hdr) (by rw [hrc]; simp)
                    · rcases List.mem_singleton.1 hr with rfl
                      exact tsLe_refl _
                  · rw [lookupA_insertA_ne m e0 e' d0 he] at hl'
                    obtain ⟨hmem, henv', hmax⟩ := Inv1 e' d' hl'
                    refine ⟨List.mem_append_left _ hmem, henv', ?_⟩
                    intro r hr hre
                    rcases List.mem_append.1 hr with hr | hr
                    · exact hmax r hr hre
                    · rcases List.mem_singleton.1 hr with rfl
                      rw [henv] at hre
                      injection hre with hh
                      exact absurd hh.symm he
                · rw [if_neg hlt] at hl'
                  obtain ⟨hmem, henv', hmax⟩ := Inv1 e' d' hl'
                  refine ⟨List.mem_append_left _ hmem, henv', ?_⟩
                  intro r hr hre
                  rcases List.mem_append.1 hr with hr | hr
                  · exact hmax r hr hre
                  · rcases List.mem_singleton.1 hr with rfl
                    rw [henv] at hre
                    have hh : e0 = e' := by injection hre
                    subst hh
                    have hcd : cur = d' := by
                      have h2 := hcur.symm.trans hl'
                      injection h2
                    subst hcd
                    have hcur_ts : updTime cur = candTs cur := H cur (List.mem_append_left _ hmem)
                    rw [hcur_ts] at hlt
                    simp [tsLe, hlt]
      case inv2 =>
        intro r hr e' hre
        cases henv : envNameOf el d0 with
        | none =>
            simp only [stepLatest, henv]
            rcases List.mem_append.1 hr with hr | hr
            · exact Inv2 r hr e' hre
            · rcases List.mem_singleton.1 hr with rfl
              rw [henv] at hre; cases hre
        | some e0 =>
            simp only [stepLatest, henv]
            rcases List.mem_append.1 hr with hrp | hrd
            · cases hcur : lookupA m e0 with
              | none =>
                  by_cases he : e' = e0
                  · subst he; simp [lookupA_insertA_self]
                  · rw [lookupA_insertA_ne m e0 e' d0 he]
                    exact Inv2 r hrp e' hre
              | some cur =>
                  dsimp only
                  by_cases hlt : tsLt (updTime cur) (candTs d0) = true
                  · rw [if_pos hlt]
                    by_cases he : e' = e0
                    · subst he; simp [lookupA_insertA_self]
                    · rw [lookupA_insertA_ne m e0 e' d0 he]
                      exact Inv2 r hrp e' hre
                  · rw [if_neg hlt]
                    exact Inv2 r hrp e' hre
            · rcases List.mem_singleton.1 hrd with rfl
              rw [henv] at hre
              obtain rfl : e' = e0 := by injection hre with hh; exact hh.symm
              cases hcur : lookupA m e' with
              | none => simp [lookupA_insertA_self]
              | some cur =>
                  dsimp only
                  by_cases hlt : tsLt (updTime cur) (candTs r) = true
                  · rw [if_pos hlt]; simp [lookupA_insertA_self]
                  · rw [if_neg hlt]; simp [hcur]

/-- Claim C2 (amended): for records whose `update_time` field equals
their candidate timestamp (first non-empty of `update_time`,
`updated_on`, `completed_on`, `created_on`), the resolver retains, per
environment name, a record of that environment with the
lexicographically greatest candidate timestamp.  Without that
hypothesis the code compares a new record's candidate timestamp
against only the stored record's `update_time` (main.py 382), so a
record whose timestamp lives in another field can be superseded by an
older record (see the counterexample); and the comparison is strict,
so ties keep the earlier record, not the later one. -/
theorem C2_amended (el : String → Option String) (records : List JVal) (e : String) (d : JVal)
    (H : ∀ r ∈ records, updTime r = candTs r)
    (hl : lookupA (resolveLatest el records) e = some d) :
    d ∈ records ∧ envNameOf el d = some e ∧
      ∀ r ∈ records, envNameOf el r = some e → tsLe (candTs r) (candTs d) = true := by
  have key := resolveLatest_aux el records [] []
    (by simpa using H)
    (by intro e' d' h; simp [lookupA] at h)
    (by simp)
    e d hl
  simpa using key

/-- Claim C2, counterexample: two records for environment `"prod"`,
the first with `updated_on = "2024-05-01"` (its candidate timestamp),
the second with `update_time = "2024-01-01"`.  The claim says the
first (greatest candidate timestamp) is retained; the code compares
`"2024-01-01" > (first.update_time or "")`, i.e. against `""`, and
retains the second, strictly older record. -/
theorem C2_counterexample :
    lookupA (resolveLatest (fun _ => none)
      [.obj [("environment", .obj [("name", .str "prod")]), ("updated_on", .str "2024-05-01")],
       .obj [("environment", .obj [("name", .str "prod")]), ("update_time", .str "2024-01-01")]])
      "prod" =
      some (.obj [("environment", .obj [("name", .str "prod")]),
                  ("update_time", .str "2024-01-01")]) ∧
    tsLt "2024-01-01" "2024-05-01" = true :=
  ⟨rfl, by decide⟩

/-- Witness for `C2_amended` at a concrete two-record input. -/
theorem C2_witness :
    (.obj [("environment", .obj [("name", .str "prod")]), ("update_time", .str "2024-05-01")] : JVal) ∈
      [(.obj [("environment", .obj [("name", .str "prod")]), ("update_time", .str "2024-05-01")] : JVal),
       .obj [("environment", .obj [("name", .str "prod")]), ("update_time", .str "2024-01-01")]] ∧
    envNameOf (fun _ => none)
      (.obj [("environment", .obj [("name", .str "prod")]), ("update_time", .str "2024-05-01")]) =
      some "prod" ∧
    ∀ r ∈ [(.obj [("environment", .obj [("name", .str "prod")]), ("update_time", .str "2024-05-01")] : JVal),
           .obj [("environment", .obj [("name", .str "prod")]), ("update_time", .str "2024-01-01")]],
      envNameOf (fun _ => none) r = some "prod" →
      tsLe (candTs r)
        (candTs (.obj [("environment", .obj [("name", .str "prod")]),
                       ("update_time", .str "2024-05-01")])) = true :=
  C2_amended (fun _ => none) _ "prod" _
    (by intro r hr; rcases List.mem_cons.1 hr with rfl | hr2
        · rfl
        · rcases List.mem_singleton.1 hr2 with rfl; rfl)
    rfl

/-! ## Claim C3 — no success-filtered selection mode -/

/-- Claim C3, counterexample: a deployment whose status sub-collection
(as returned by `get_deployment_statuses`, bbclient.py 91-100)
contains no successful event is nevertheless retained as the latest
for its environment by the resolver of the `/deployments` handler —
the only selection logic in the repository; no code path filters on
statuses, so no success-requiring selection mode exists. -/
theorem C3_counterexample :
    (getDeploymentStatuses [⟨[.obj [("state", .str "FAILED")]], false⟩]).any
        isSuccessfulStatus = false ∧
    lookupA (resolveLatest (fun _ => none)
        [.obj [("environment", .obj [("name", .str "production")]),
               ("update_time", .str "2025-01-01T00:00:00Z")]])
      "production" =
      some (.obj [("environment", .obj [("name", .str "production")]),
                  ("update_time", .str "2025-01-01T00:00:00Z")]) :=
  ⟨by decide, rfl⟩

/-- Claim C3 (amended): the repository's only environment resolver
(the `/deployments` production path, main.py 348-383) selects the
latest deployment per environment without consulting the status
sub-collection; a deployment with no successful status event —
whatever `get_deployment_statuses` would return for it — is still
eligible and selected.  The status accessor exists in
`BitbucketClient` but is called by no resolver. -/
theorem C3_amended (el : String → Option String) (chain : List PageResp) (d : JVal) (e : String)
    (henv : envNameOf el d = some e)
    (_hnosucc : (getDeploymentStatuses chain).any isSuccessfulStatus = false) :
    lookupA (resolveLatest el [d]) e = some d := by
  simp [resolveLatest, List.foldl, stepLatest, henv, lookupA, insertA]

/-- Witness for `C3_amended`: a deployment whose status pages hold a
single `FAILED` event is still selected. -/
theorem C3_witness :
    lookupA (resolveLatest (fun _ => none)
        [.obj [("environment", .str "production"), ("update_time", .str "2025-06-01")]])
      "production" =
      some (.obj [("environment", .str "production"), ("update_time", .str "2025-06-01")]) :=
  C3_amended (fun _ => none) [⟨[.obj [("state", .str "FAILED")]], false⟩] _ "production"
    rfl (by decide)

/-! ## Claim C7 — paginator termination and truncation -/

/-- The capped paginator yields exactly the first `m - c` items of the
uncapped stream (bbclient.py 54-69). -/
theorem paginate_take_aux :
    ∀ (chain : List PageResp) (m c : Nat),
      paginate (some m) chain c = (paginate none chain 0).take (m - c)
  | [], m, c => by simp [paginate]
  | pg :: rest, m, c => by
      simp only [paginate]
      by_cases hlt : m - c < pg.values.length
      · rw [if_pos hlt]
        cases hn : pg.next with
        | true =>
            rw [if_pos rfl]
            rw [List.take_append_of_le_length (le_of_lt hlt)]
        | false =>
            rw [if_neg (by simp), List.append_nil]
      · rw [if_neg hlt]
        push_neg at hlt
        have hys : pg.values.take (m - c) = pg.values := List.take_of_length_le hlt
        cases hn : pg.next with
        | true =>
            rw [if_pos rfl, if_pos rfl]
            rw [paginate_take_aux rest m (c + pg.values.length)]
            rw [List.take_append_eq_append_take, hys]
            congr 1
            congr 1
            omega
        | false =>
            rw [if_neg (by simp), if_neg (by simp)]
            rw [List.append_nil, List.append_nil, hys]

/-- Claim C7 (amended): the paginator follows the `next` link of each
page and terminates when no next link is present or when `max_items`
items have been yielded — the sequence is truncated to exactly the
first `max_items` items of the uncapped stream, never completing the
final page.  An empty page does **not** terminate the walk: with a
next link present, iteration continues to the following page. -/
theorem C7_amended :
    (∀ (chain : List PageResp) (m : Nat),
        paginate (some m) chain 0 = (paginate none chain 0).take m) ∧
    (∀ (chain : List PageResp) (m : Nat),
        (paginate (some m) chain 0).length ≤ m) ∧
    (∀ (vs : List JVal) (rest : List PageResp) (mi : Option Nat),
        paginate mi (⟨vs, false⟩ :: rest) 0 = paginate mi [⟨vs, false⟩] 0) ∧
    (∀ (rest : List PageResp),
        paginate none (⟨[], true⟩ :: rest) 0 = paginate none rest 0) := by
  refine ⟨?_, ?_, ?_, ?_⟩
  · intro chain m
    simpa using paginate_take_aux chain m 0
  · intro chain m
    have h := paginate_take_aux chain m 0
    simp only [Nat.sub_zero] at h
    rw [h, List.length_take]
    exact Nat.min_le_left _ _
  · intro vs rest mi
    cases mi with
    | none => simp [paginate]
    | some m => simp [paginate]
  · intro rest
    simp [paginate]

/-- Claim C7, counterexample: the claim says the paginator terminates
when a page is empty.  A first page with no values but a `next` link,
followed by a page with one value, yields that value — the walk
continued past the empty page (it stops on an empty page only when the
`next` link is also absent, second conjunct). -/
theorem C7_counterexample :
    paginate none [⟨[], true⟩, ⟨[.str "v1"], false⟩] 0 = [.str "v1"] ∧
    paginate none [⟨[], false⟩] 0 = [] := by
  constructor <;> rfl

/-! ## The `/deployments` handler (main.py 274-537)

All upstream endpoints the handler actually calls are gathered in a
`Fetch` oracle, each taking workspace and slug (and a key where
relevant); `none` models a non-success response.  The handler never
queries the status sub-collection.  The per-repository `env_cache` and
the enrichment `commit_cache` sit in front of deterministic endpoints,
so `envLookup` is passed as the resolved function; the enrichment
cache is modelled explicitly because the fetch counts matter (C6). -/

/-- The upstream fetches performed by the `/deployments` handler. -/
structure Fetch where
  deploymentsPage : String → String → Option (List JVal)
  pipelinesPage : String → String → Option (List JVal)
  envLookup : String → String → String → Option String
  commitDetail : String → String → String → Option JVal
  tagSearch : String → String → String → Option (List JVal)
  depDetail : String → String → String → Option JVal

/-- One output row of the handler (main.py 514-528). -/
structure Entry where
  repository : String
  environment : String
  name : JVal
  commit : Option String
  tag : JVal
  update_time : JVal
  result : JVal
  link : JVal

/-- Python `repo_full.split("/", 1)` (used when `"/" in repo_full`):
the part before the first slash and everything after it. -/
def splitFirstSlash (s : String) : String × String :=
  (String.mk (s.toList.takeWhile (· ≠ '/')),
   String.mk ((s.toList.dropWhile (· ≠ '/')).drop 1))

/-- The pipelines fallback (main.py 394-422): walk the returned runs in
order, skip those whose result is `IN_PROGRESS`/`PENDING`/`BUILDING`,
and keep only the first remaining one (the loop breaks), keyed by its
target ref name (default `"pipeline"`), as a synthetic deployment
record. -/
def firstPipelineEntry : List JVal → Option (String × JVal)
  | [] => none
  | p :: rest =>
    let state := jget p "state"
    let result := jOr (jget (jget state "result") "name") (jget state "name")
    let skip :=
      match result with
      | .str s => s == "IN_PROGRESS" || s == "PENDING" || s == "BUILDING"
      | _ => false
    if skip then firstPipelineEntry rest
    else
      let envKey :=
        match jgetOpt (jget p "target") "ref_name" with
        | some (.str s) => s
        | some _ => "pipeline"
        | none => "pipeline"
      some (envKey,
        .obj [("name", jOr (jget p "name") (jget p "build_number")),
              ("commit", jget (jget (jget p "target") "commit") "hash"),
              ("update_time", jOr (jget p "completed_on") (jget p "created_on")),
              ("state", .obj [("result", result)]),
              ("links", jget p "links")])

/-- Python `d.update(other)` on dicts: values of `other` override,
existing keys keep their position, new keys append in `other`'s
order. -/
def objUpdate (d other : JVal) : JVal :=
  match d, other with
  | .obj fs, .obj gs => .obj (gs.foldl (fun acc kv => insertA acc kv.1 kv.2) fs)
  | _, _ => d

/-- Python `d[k] = v` on a dict. -/
def jSet (d : JVal) (k : String) (v : JVal) : JVal :=
  match d with
  | .obj fs => .obj (insertA fs k v)
  | _ => d

/-- The secondary detail fetch for a record with no extractable commit
(main.py 468-492): resolve the deployment uuid, fetch the detail
record, merge it into the stored record, retry extraction once, and on
success register the hash (deduplicated) and pin it under `commit`. -/
def detailBranch (F : Fetch) (ws slug : String)
    (acc : List (String × JVal) × List String) (e : String) (d : JVal) :
    List (String × JVal) × List String :=
  let duuid := jOr (jget d "uuid") (jget (jOr (jget d "deployment") (.obj [])) "uuid")
  match duuid with
  | .str u =>
    if u = "" then (acc.1 ++ [(e, d)], acc.2)
    else
      match F.depDetail ws slug (stripBraces u) with
      | some depFull =>
        let d1 := objUpdate d depFull
        match commitHashFromDeployment depFull with
        | some ch2 =>
          if ch2 != "" && !(acc.2.contains ch2) then
            (acc.1 ++ [(e, jSet d1 "commit" (.obj [("hash", .str ch2)]))], acc.2 ++ [ch2])
          else (acc.1 ++ [(e, d1)], acc.2)
        | none => (acc.1 ++ [(e, d1)], acc.2)
      | none => (acc.1 ++ [(e, d)], acc.2)
  | _ => (acc.1 ++ [(e, d)], acc.2)

/-- One step of the hash-collection loop over the selected records
(main.py 462-492): a record with an extractable non-empty hash
registers it; otherwise the detail branch runs. -/
def collectStep (F : Fetch) (ws slug : String)
    (acc : List (String × JVal) × List String) (kv : String × JVal) :
    List (String × JVal) × List String :=
  match commitHashFromDeployment kv.2 with
  | some ch =>
      if ch = "" then detailBranch F ws slug acc kv.1 kv.2
      else (acc.1 ++ [(kv.1, kv.2)], acc.2 ++ [ch])
  | none => detailBranch F ws slug acc kv.1 kv.2

/-- Build one output row (main.py 499-528). -/
def mkEntry (slug : String) (cache : List (String × CommitInfo)) (ed : String × JVal) :
    Entry :=
  let d := ed.2
  let stateObj := jOr (jOr (jget d "state") (jget d "deployment_state")) (.obj [])
  let result := jOr (jget stateObj "result")
    (jOr (match jget stateObj "name" with | .str s => .str s | _ => .null)
      (jOr (jget stateObj "status") (.str "UNKNOWN")))
  let chOpt := commitHashFromDeployment d
  let info : Option CommitInfo :=
    match chOpt with
    | some ch => if ch = "" then none else lookupA cache ch
    | none => none
  { repository := slug
    environment := ed.1
    name := jget d "name"
    commit := chOpt
    tag := (match info with | some i => i.tag | none => .null)
    update_time := jOr (jget d "update_time") (jOr (jget d "updated_on")
      (jOr (jget d "completed_on") (jget d "created_on")))
    result := result
    link := jget (jget (jget d "links") "html") "href" }

/-- The emission loop (main.py 499-528): one row per retained
environment, in insertion order. -/
def emitEntries (slug : String) (cache : List (String × CommitInfo))
    (latest : List (String × JVal)) : List Entry :=
  latest.map (mkEntry slug cache)

/-- Strict lexicographic order on the Python sort key
`(x["repository"], x["environment"])` (main.py 536). -/
def entryKeyLt (a b : Entry) : Bool :=
  tsLt a.repository b.repository ||
    (a.repository == b.repository && tsLt a.environment b.environment)

/-- Stable insertion: a new entry goes after existing entries with an
equal key, matching Python's stable `list.sort`. -/
def insertEntry (e : Entry) : List Entry → List Entry
  | [] => [e]
  | x :: xs => if entryKeyLt e x then e :: x :: xs else x :: insertEntry e xs

/-- `out.sort(key=lambda x: (x["repository"], x["environment"]))`. -/
def sortEntries (l : List Entry) : List Entry :=
  l.foldl (fun acc e => insertEntry e acc) []

/-- The pipelines-API fallback with its success flag (main.py
394-422): a 200 marks the workspace as reachable even when every run
is skipped. -/
def pipelineFallback (F : Fetch) (ws slug : String) : List (String × JVal) × Bool :=
  match F.pipelinesPage ws slug with
  | some pvals =>
    (match firstPipelineEntry pvals with
     | some (k, r) => [(k, r)]
     | none => [], true)
  | none => ([], false)

/-- Per-repository work of the handler once workspace and slug are
split (main.py 330-534): deployments page, pipelines fallback, skip
when nothing was reachable, then hash collection, enrichment and
emission.  The returned log lists `(workspace, slug, hash)` for each
issued commit-detail/tag-search fetch pair. -/
def processRepoBody (F : Fetch) (ws slug : String) :
    List Entry × List (String × String × String) :=
  if ws = "" then ([], [])
  else
    let latestSuccess : List (String × JVal) × Bool :=
      match F.deploymentsPage ws slug with
      | some vals =>
        let l := resolveLatest (F.envLookup ws slug) vals
        if l.isEmpty then ((pipelineFallback F ws slug).1, true)
        else (l, true)
      | none => pipelineFallback F ws slug
    if latestSuccess.1.isEmpty && !latestSuccess.2 then ([], [])
    else
      let ce := latestSuccess.1.foldl (collectStep F ws slug) ([], [])
      let er := enrichList (F.commitDetail ws slug) (F.tagSearch ws slug) [] ce.2
      (emitEntries slug er.1 ce.1, er.2.map (fun h => (ws, slug, h)))

/-- The handler raises `NameError` for a configured repository without
a slash: that branch (main.py 327-328) reads `discovered_workspaces`,
a name defined nowhere in the module. -/
inductive HErr where
  | nameError : HErr

/-- One repository of the handler loop (main.py 322-328): a slashed
entry is split into workspace and slug and processed; an unslashed
entry evaluates the undefined name `discovered_workspaces` and raises
`NameError`. -/
def processRepo (F : Fetch) (repoFull : String) :
    Except HErr (List Entry × List (String × String × String)) :=
  if repoFull.toList.contains '/' then
    .ok (processRepoBody F (splitFirstSlash repoFull).1 (splitFirstSlash repoFull).2)
  else .error .nameError

/-- The repository loop: sequential, results concatenated; an exception
aborts the whole call. -/
def handlerGo (F : Fetch) :
    List String → Except HErr (List Entry × List (String × String × String))
  | [] => .ok ([], [])
  | r :: rest =>
    match processRepo F r with
    | .error e => .error e
    | .ok (es, lg) =>
      match handlerGo F rest with
      | .error e => .error e
      | .ok (es', lg') => .ok (es ++ es', lg ++ lg')

/-- The `/deployments` handler over its configured repository list:
process each repository, then sort all rows by
`(repository, environment)` (main.py 274-537). -/
def deploymentsHandler (F : Fetch) (repos : List String) :
    Except HErr (List Entry × List (String × String × String)) :=
  match handlerGo F repos with
  | .error e => .error e
  | .ok (es, lg) => .ok (sortEntries es, lg)

/-- Number of commit-detail (equivalently, tag-search) fetches issued
for hash `h` during one handler call. -/
def handlerFetchCount
    (res : Except HErr (List Entry × List (String × String × String))) (h : String) : Nat :=
  match res with
  | .ok (_, lg) => (lg.filter (fun t => t.2.2 == h)).length
  | .error _ => 0

/-! ## Claims C5, C6, C8 — enrichment -/

/-- After `_enrich_commit` runs for `h`, the cache holds `h`. -/
theorem enrich_lookup_self (fc : String → Option JVal) (ft : String → Option (List JVal))
    (cache : List (String × CommitInfo)) (h : String) :
    (lookupA (enrichCommit fc ft cache h) h).isSome = true := by
  unfold enrichCommit
  cases hc : (lookupA cache h).isSome with
  | true => simpa using hc
  | false => simp [lookupA_insertA_self]

theorem enrich_lookup_ne (fc : String → Option JVal) (ft : String → Option (List JVal))
    (cache : List (String × CommitInfo)) (h0 h : String) (hne : h ≠ h0) :
    lookupA (enrichCommit fc ft cache h0) h = lookupA cache h := by
  unfold enrichCommit
  cases hc : (lookupA cache h0).isSome with
  | true => simp
  | false => simp [lookupA_insertA_ne _ _ _ _ hne]

/-- Fetch-count bookkeeping of the enrichment loop: a hash is fetched
exactly once when it occurs in the requested list and is not already
cached, and zero times otherwise. -/
theorem enrichList_count_aux (fc : String → Option JVal) (ft : String → Option (List JVal)) :
    ∀ (hs : List String) (cache : List (String × CommitInfo)) (h : String),
      (enrichList fc ft cache hs).2.count h =
        if h ∈ hs ∧ (lookupA cache h).isNone = true then 1 else 0
  | [], cache, h => by simp [enrichList]
  | h0 :: hs', cache, h => by
      simp only [enrichList]
      cases hhit : (lookupA cache h0).isSome with
      | true =>
          rw [if_pos rfl]
          rw [enrichList_count_aux fc ft hs' cache h]
          by_cases heq : h = h0
          · subst heq
            have hnone : (lookupA cache h).isNone = false := by
              cases hx : lookupA cache h with
              | none => rw [hx] at hhit; cases hhit
              | some v => simp
            simp [hnone]
          · exact if_congr (by simp [List.mem_cons, heq]) rfl rfl
      | false =>
          rw [if_neg (by simp)]
          dsimp only
          by_cases heq : h = h0
          · subst heq
            rw [List.count_cons_self]
            rw [enrichList_count_aux fc ft hs' (enrichCommit fc ft cache h) h]
            have hsome := enrich_lookup_self fc ft cache h
            have h1 : (lookupA (enrichCommit fc ft cache h) h).isNone = false := by
              cases hx : lookupA (enrichCommit fc ft cache h) h with
              | none => rw [hx] at hsome; cases hsome
              | some v => simp
            have h2 : (lookupA cache h).isNone = true := by
              cases hx : lookupA cache h with
              | none => simp
              | some v => rw [hx] at hhit; cases hhit
            simp [h1, h2]
          · rw [List.count_cons_of_ne heq]
            rw [enrichList_count_aux fc ft hs' (enrichCommit fc ft cache h0) h]
            rw [enrich_lookup_ne fc ft cache h0 h heq]
            exact if_congr (by simp [List.mem_cons, heq]) rfl rfl

/-- Claim C6 (amended): within one repository's enrichment pass of a
dashboard-build call — the scope of `commit_cache`, which the handler
creates anew for every repository (main.py 436) — requesting
enrichment for the same commit hash any number of times performs
exactly one commit-detail fetch and one tag-search fetch; every later
request is a cache hit, including when the lookups failed (the absent
result is cached, `fc`/`ft` are arbitrary here).  Across repositories
of the same call the cache is reset, so a hash shared by two
repositories is fetched once per repository (see the
counterexample). -/
theorem C6_amended (fc : String → Option JVal) (ft : String → Option (List JVal))
    (hs : List String) (h : String) :
    (enrichList fc ft [] hs).2.count h = if h ∈ hs then 1 else 0 := by
  rw [enrichList_count_aux fc ft hs [] h]
  exact if_congr (by simp [lookupA]) rfl rfl

/-- A deployment record for environment `"prod"` carrying commit `h`. -/
def c6Dep (h : String) : JVal :=
  .obj [("environment", .obj [("name", .str "prod")]),
        ("update_time", .str "2025-01-01"),
        ("commit", .obj [("hash", .str h)])]

/-- An oracle serving the same single-deployment page for every
repository, with failing commit-detail and tag lookups. -/
def c6Fetch : Fetch :=
  { deploymentsPage := fun _ _ => some [c6Dep "abc123"]
    pipelinesPage := fun _ _ => none
    envLookup := fun _ _ _ => none
    commitDetail := fun _ _ _ => none
    tagSearch := fun _ _ _ => none
    depDetail := fun _ _ _ => none }

/-- Claim C6, counterexample: one handler call over two repositories
whose latest deployments carry the same commit hash issues two
commit-detail/tag fetch pairs for that hash — the cache is per
repository, not per call (main.py 436 re-creates `commit_cache` inside
the repository loop), though within one repository it is one fetch. -/
theorem C6_counterexample :
    handlerFetchCount (deploymentsHandler c6Fetch ["ws/a", "ws/b"]) "abc123" = 2 ∧
    handlerFetchCount (deploymentsHandler c6Fetch ["ws/a"]) "abc123" = 1 := by
  constructor <;> rfl

/-- Claim C5: a non-success status on the commit-detail lookup yields
absent `message`/`date` only (the tag search still runs), a
non-success tag search yields an absent `tag` only, the enrichment
always completes and caches a triple, and every selected deployment is
emitted as exactly one output row — with a null `tag` when its hash
was never successfully enriched — rather than dropped. -/
theorem C5_enrichment_partial_failure :
    (∀ (fc : String → Option JVal) (ft : String → Option (List JVal))
        (cache : List (String × CommitInfo)) (h : String),
        lookupA cache h = none → fc h = none →
        lookupA (enrichCommit fc ft cache h) h = some ⟨.null, .null, tagResult ft h⟩) ∧
    (∀ (fc : String → Option JVal) (ft : String → Option (List JVal))
        (cache : List (String × CommitInfo)) (h : String),
        lookupA cache h = none → ft h = none →
        lookupA (enrichCommit fc ft cache h) h =
          some ⟨msgResult fc h, dateResult fc h, .null⟩) ∧
    (∀ (slug : String) (cache : List (String × CommitInfo)) (latest : List (String × JVal)),
        (emitEntries slug cache latest).length = latest.length ∧
        ∀ ed ∈ latest, mkEntry slug cache ed ∈ emitEntries slug cache latest) ∧
    (∀ (slug : String) (cache : List (String × CommitInfo)) (e : String) (d : JVal)
        (ch : String),
        commitHashFromDeployment d = some ch → lookupA cache ch = none →
        (mkEntry slug cache (e, d)).tag = .null) := by
  refine ⟨?_, ?_, ?_, ?_⟩
  · intro fc ft cache h hcache hfc
    simp [enrichCommit, hcache, msgResult, dateResult, hfc, lookupA_insertA_self]
  · intro fc ft cache h hcache hft
    simp [enrichCommit, hcache, tagResult, hft, lookupA_insertA_self]
  · intro slug cache latest
    refine ⟨by simp [emitEntries], ?_⟩
    intro ed hed
    exact List.mem_map_of_mem _ hed
  · intro slug cache e d ch hch hcache
    by_cases hch0 : ch = ""
    · subst hch0
      simp [mkEntry, hch]
    · simp [mkEntry, hch, hch0, hcache]

/-- Witness instantiating all four parts of
`C5_enrichment_partial_failure` at concrete inputs. -/
theorem C5_witness :
    lookupA (enrichCommit (fun _ => none)
        (fun _ => some [.obj [("name", .str "v1.0")]]) [] "abc") "abc" =
      some ⟨.null, .null, .str "v1.0"⟩ ∧
    lookupA (enrichCommit (fun _ => some (.obj [("message", .str "m"), ("date", .str "d")]))
        (fun _ => none) [] "abc") "abc" =
      some ⟨.str "m", .str "d", .null⟩ ∧
    (emitEntries "repo" []
        [("prod", c6Dep "abc123")]).length = 1 ∧
    (mkEntry "repo" [] ("prod", c6Dep "abc123")).tag = .null := by
  refine ⟨?_, ?_, ?_, ?_⟩
  · exact C5_enrichment_partial_failure.1 _ _ [] "abc" rfl rfl
  · exact C5_enrichment_partial_failure.2.1 _ _ [] "abc" rfl rfl
  · exact (C5_enrichment_partial_failure.2.2.1 "repo" [] [("prod", c6Dep "abc123")]).1
  · exact C5_enrichment_partial_failure.2.2.2 "repo" [] "prod" (c6Dep "abc123") "abc123" rfl rfl

/-- Claim C8, counterexample: enriching a commit whose message has two
lines caches the full two-line message (`j.get("message")`, main.py
448), not its first line — unlike the `/bitbucket-commits` listing
endpoint, which applies `firstLine` (main.py 265). -/
theorem C8_counterexample :
    lookupA (enrichCommit
        (fun _ => some (.obj [("message", .str "line1\nline2"), ("date", .str "2024-05-01")]))
        (fun _ => none) [] "abc") "abc" =
      some ⟨.str "line1\nline2", .str "2024-05-01", .null⟩ ∧
    firstLine "line1\nline2" = "line1" ∧
    ("line1\nline2" : String) ≠ "line1" := by
  refine ⟨rfl, by decide, by decide⟩

/-- Claim C8 (amended): on a successful commit-detail lookup the
enricher records the full, unmodified commit message together with the
date (`j.get("date") or j.get("author").get("date")`); no first-line
truncation is applied in the enricher. -/
theorem C8_amended (fc : String → Option JVal) (ft : String → Option (List JVal))
    (cache : List (String × CommitInfo)) (h : String) (j : JVal)
    (hcache : lookupA cache h = none) (hfc : fc h = some j) :
    lookupA (enrichCommit fc ft cache h) h =
      some ⟨jget j "message", jOr (jget j "date") (jget (jget j "author") "date"),
            tagResult ft h⟩ := by
  simp [enrichCommit, hcache, msgResult, dateResult, hfc, lookupA_insertA_self]

/-- Witness for `C8_amended`. -/
theorem C8_witness :
    lookupA (enrichCommit
        (fun _ => some (.obj [("message", .str "a\nb"), ("date", .str "2024")]))
        (fun _ => none) [] "h1") "h1" =
      some ⟨.str "a\nb", .str "2024", .null⟩ :=
  C8_amended _ _ [] "h1" (.obj [("message", .str "a\nb"), ("date", .str "2024")]) rfl rfl

/-! ## Claims C10 and C4 — handler totality and per-repository failure isolation -/

/-- An unslashed configured repository makes the handler raise
(main.py 327-328 read the undefined name `discovered_workspaces`). -/
theorem processRepo_error (F : Fetch) (r : String)
    (hc : r.toList.contains '/' = false) :
    processRepo F r = .error .nameError := by
  unfold processRepo
  rw [if_neg (by simpa using hc)]

/-- A slashed configured repository is processed without raising. -/
theorem processRepo_ok (F : Fetch) (r : String)
    (hc : r.toList.contains '/' = true) :
    processRepo F r =
      .ok (processRepoBody F (splitFirstSlash r).1 (splitFirstSlash r).2) := by
  unfold processRepo
  rw [if_pos hc]

/-- The repository loop raises `NameError` as soon as any configured
entry lacks a slash, whatever the fetch oracle returns. -/
theorem handlerGo_error (F : Fetch) :
    ∀ (repos : List String) (r : String), r ∈ repos →
      r.toList.contains '/' = false → handlerGo F repos = .error .nameError
  | [], r, hr, _ => absurd hr (List.not_mem_nil r)
  | r0 :: rest, r, hr, hc => by
      rcases List.mem_cons.1 hr with rfl | hr'
      · simp only [handlerGo, processRepo_error F r hc]
      · cases hc0 : r0.toList.contains '/' with
        | false => simp only [handlerGo, processRepo_error F r0 hc0]
        | true =>
            simp only [handlerGo, processRepo_ok F r0 hc0]
            rw [handlerGo_error F rest r hr' hc]

/-- The repository loop completes when every configured entry has a
slash: no other statement in the handler raises. -/
theorem handlerGo_ok (F : Fetch) :
    ∀ (repos : List String), (∀ r ∈ repos, r.toList.contains '/' = true) →
      (handlerGo F repos).isOk = true
  | [], _ => rfl
  | r0 :: rest, hall => by
      have h0 := hall r0 (List.mem_cons_self r0 rest)
      simp only [handlerGo, processRepo_ok F r0 h0]
      have hrest := handlerGo_ok F rest (fun r hr => hall r (List.mem_cons_of_mem _ hr))
      cases hx : handlerGo F rest with
      | error e => rw [hx] at hrest; cases hrest
      | ok p =>
          obtain ⟨es', lg'⟩ := p
          simp [hx, Except.isOk, Except.toBool]

/-- The handler call succeeds whenever every configured repository
contains a slash. -/
theorem deploymentsHandler_isOk (F : Fetch) (repos : List String)
    (hall : ∀ r ∈ repos, r.toList.contains '/' = true) :
    (deploymentsHandler F repos).isOk = true := by
  have h := handlerGo_ok F repos hall
  cases hx : handlerGo F repos with
  | error e => rw [hx] at h; cases h
  | ok p =>
      obtain ⟨es, lg⟩ := p
      simp [deploymentsHandler, hx, Except.isOk, Except.toBool]

/-- Claim C10: the `/deployments` handler is total exactly on
configurations whose every repository string contains a `"/"`.  Any
entry without one reaches the `else` branch at main.py 327-328, which
evaluates `discovered_workspaces` — a name defined nowhere in the
module — so the call raises `NameError` instead of producing a result;
with every entry slashed, the call always produces a result. -/
theorem C10_nameError :
    (∀ (F : Fetch) (repos : List String) (r : String), r ∈ repos →
        r.toList.contains '/' = false →
        deploymentsHandler F repos = .error .nameError) ∧
    (∀ (F : Fetch) (repos : List String),
        (∀ r ∈ repos, r.toList.contains '/' = true) →
        (deploymentsHandler F repos).isOk = true) := by
  constructor
  · intro F repos r hr hc
    simp [deploymentsHandler, handlerGo_error F repos r hr hc]
  · exact deploymentsHandler_isOk

/-- A fetch oracle on which every upstream call fails. -/
def c10Fetch : Fetch :=
  { deploymentsPage := fun _ _ => none
    pipelinesPage := fun _ _ => none
    envLookup := fun _ _ _ => none
    commitDetail := fun _ _ _ => none
    tagSearch := fun _ _ _ => none
    depDetail := fun _ _ _ => none }

/-- Witness for both parts of `C10_nameError`: the default-style
configuration entry `"frontend"` (no slash) raises, the slashed
`"palliativa/frontend"` does not. -/
theorem C10_witness :
    deploymentsHandler c10Fetch ["frontend"] = .error .nameError ∧
    (deploymentsHandler c10Fetch ["palliativa/frontend"]).isOk = true := by
  constructor
  · exact C10_nameError.1 c10Fetch ["frontend"] "frontend" (List.mem_singleton.2 rfl) rfl
  · exact C10_nameError.2 c10Fetch ["palliativa/frontend"]
      (fun r hr => by rcases List.mem_singleton.1 hr with rfl; rfl)

/-! ## Claim C4 — one failing repository in a dashboard build

`PipelineDashboard.get_dashboard` (pipeline_dashboard.py 16-77) walks
its repositories sequentially with no exception handling; the
paginator behind `list_pipelines` raises on the first non-2xx page
(`resp.raise_for_status()`, bbclient.py 62).  We embed the outcome of
one `list_pipelines` call as an oracle returning `Except FErr`: an
error models the propagated `HTTPStatusError`. -/

/-- The error raised by `raise_for_status` (carries the HTTP status). -/
inductive FErr where
  | httpError (status : Nat) : FErr

/-- One dashboard row for a pipeline run (pipeline_dashboard.py 59-73). -/
structure PEntry where
  uuid : JVal
  ref_name : JVal
  completed_on : JVal
  result : JVal
  state_type : JVal
  state_name : JVal
  state_result_name : JVal
  commit : JVal
  commit_link : JVal
  pipeline_link : JVal

/-- Translation of the per-pipeline entry construction
(pipeline_dashboard.py 42-73). -/
def pipelineEntryOf (p : JVal) : PEntry :=
  let state := jOr (jget p "state") (.obj [])
  let result :=
    match state with
    | .obj _ =>
        jOr (jget (jget state "result") "name") (jOr (jget state "name") (jget state "type"))
    | _ => .null
  let commit := jget (jget p "target") "commit"
  { uuid := jget p "uuid"
    ref_name := jget (jget p "target") "ref_name"
    completed_on := jget p "completed_on"
    result := result
    state_type := jget state "type"
    state_name := jget state "name"
    state_result_name := jget (jget state "result") "name"
    commit := jget commit "hash"
    commit_link := jget (jget (jget commit "links") "html") "href"
    pipeline_link := jOr (jget (jget (jget p "links") "html") "href")
      (jget (jget (jget p "links") "self") "href") }

/-- The per-repository category loop (pipeline_dashboard.py 34-74):
one `list_pipelines` call per pattern; a raise propagates. -/
def dashboardCats (fetchP : String → String → String → Except FErr (List JVal))
    (ws slug : String) : List String → Except FErr (List (String × List PEntry))
  | [] => .ok []
  | pat :: rest =>
    match fetchP ws slug pat with
    | .error e => .error e
    | .ok pipes =>
      match dashboardCats fetchP ws slug rest with
      | .error e => .error e
      | .ok others => .ok ((pat, pipes.map pipelineEntryOf) :: others)

/-- `PipelineDashboard.get_dashboard` (pipeline_dashboard.py 16-77):
skip unslashed repositories, build each repository's category map, and
key the result by slug; any fetch failure propagates out of the whole
call — there is no try/except. -/
def getDashboard (fetchP : String → String → String → Except FErr (List JVal))
    (cats : List String) :
    List String → Except FErr (List (String × List (String × List PEntry)))
  | [] => .ok []
  | r :: rest =>
    if r.toList.contains '/' then
      match dashboardCats fetchP (splitFirstSlash r).1 (splitFirstSlash r).2 cats with
      | .error e => .error e
      | .ok repoData =>
        match getDashboard fetchP cats rest with
        | .error e => .error e
        | .ok others => .ok (((splitFirstSlash r).2, repoData) :: others)
    else getDashboard fetchP cats rest

/-- A pipelines oracle failing for repository slug `"a"` and
succeeding for every other slug. -/
def c4FetchP : String → String → String → Except FErr (List JVal) :=
  fun _ slug _ =>
    if slug = "a" then .error (.httpError 500)
    else .ok [.obj [("uuid", .str "u1"), ("completed_on", .str "2025-01-01")]]

/-- Claim C4, counterexample: in `PipelineDashboard.get_dashboard`,
with repository `w/a` failing its primary listing fetch and `w/b`
succeeding, the whole build raises (returns the propagated fetch
error) — the succeeding repository's entries are not delivered —
even though `w/b` alone builds fine. -/
theorem C4_counterexample :
    getDashboard c4FetchP ["prod/v*"] ["w/a", "w/b"] = .error (.httpError 500) ∧
    (getDashboard c4FetchP ["prod/v*"] ["w/b"]).isOk = true := by
  constructor <;> rfl

/-- In the `/deployments` handler, a repository whose deployments and
pipelines listings both fail contributes nothing (main.py 429-430). -/
theorem processRepoBody_unreachable (F : Fetch) (ws slug : String)
    (hd : F.deploymentsPage ws slug = none) (hp : F.pipelinesPage ws slug = none) :
    processRepoBody F ws slug = ([], []) := by
  by_cases hws : ws = ""
  · simp [processRepoBody, hws]
  · simp [processRepoBody, hws, hd, hp, pipelineFallback]

/-- Claim C4 (amended): the failure-isolation property holds for the
`/deployments` handler build — a repository whose primary listing
fetches fail is skipped, the result is exactly the other repository's
complete entry set, and the call does not raise — but not for
`PipelineDashboard.get_dashboard`, where a failing primary listing
fetch propagates and aborts the whole build (see the
counterexample). -/
theorem C4_amended (F : Fetch) (r1 r2 : String)
    (h1 : r1.toList.contains '/' = true) (h2 : r2.toList.contains '/' = true)
    (hd : F.deploymentsPage (splitFirstSlash r1).1 (splitFirstSlash r1).2 = none)
    (hp : F.pipelinesPage (splitFirstSlash r1).1 (splitFirstSlash r1).2 = none) :
    deploymentsHandler F [r1, r2] = deploymentsHandler F [r2] ∧
    (deploymentsHandler F [r2]).isOk = true := by
  constructor
  · have hmatch : ∀ (x : Except HErr (List Entry × List (String × String × String))),
        (match x with
         | .error e => .error e
         | .ok (es', lg') => .ok (([] : List Entry) ++ es',
             ([] : List (String × String × String)) ++ lg')) = x := by
      intro x
      cases x with
      | error e => rfl
      | ok p =>
          obtain ⟨es, lg⟩ := p
          simp
    have hgo : handlerGo F [r1, r2] = handlerGo F [r2] := by
      show (match processRepo F r1 with
            | .error e => .error e
            | .ok (es, lg) =>
              match handlerGo F [r2] with
              | .error e => .error e
              | .ok (es', lg') => .ok (es ++ es', lg ++ lg')) = handlerGo F [r2]
      rw [processRepo_ok F r1 h1, processRepoBody_unreachable F _ _ hd hp]
      exact hmatch (handlerGo F [r2])
    simp [deploymentsHandler, hgo]
  · exact deploymentsHandler_isOk F [r2]
      (fun r hr => by rcases List.mem_singleton.1 hr with rfl; exact h2)

/-- A handler oracle whose deployments listing fails for slug `"a"`
and succeeds for any other slug. -/
def c4Fetch : Fetch :=
  { deploymentsPage := fun _ slug =>
      if slug = "a" then none
      else some [.obj [("environment", .obj [("name", .str "prod")]),
                       ("update_time", .str "2025-02-02"),
                       ("commit", .obj [("hash", .str "fff111")])]]
    pipelinesPage := fun _ _ => none
    envLookup := fun _ _ _ => none
    commitDetail := fun _ _ _ => none
    tagSearch := fun _ _ _ => none
    depDetail := fun _ _ _ => none }

/-- Witness for `C4_amended` at a concrete two-repository oracle. -/
theorem C4_witness :
    deploymentsHandler c4Fetch ["w/a", "w/b"] = deploymentsHandler c4Fetch ["w/b"] ∧
    (deploymentsHandler c4Fetch ["w/b"]).isOk = true :=
  C4_amended c4Fetch "w/a" "w/b" rfl rfl rfl rfl
/-! ## Claim C9 — commit hash from the links URL -/

/-- A list is a Boolean prefix of itself followed by anything. -/
theorem isPrefixOf_append_self : ∀ (l t : List Char), l.isPrefixOf (l ++ t) = true
  | [], t => by cases t <;> rfl
  | c :: l, t => by simp [List.isPrefixOf, isPrefixOf_append_self l t]

/-- A substring match at the head witnesses an occurrence. -/
theorem containsSeq_of_head (sep : List Char) (l : List Char)
    (h : sep.isPrefixOf l = true) (hne : l ≠ []) : containsSeq sep l = true := by
  cases l with
  | nil => exact absurd rfl hne
  | cons c rest => simp [containsSeq, h]

/-- `"/commit/"` occurs in any string of the form
`x ++ "/commit/" ++ y`. -/
theorem containsSeq_append_self : ∀ (x y : List Char),
    containsSeq commitSep (x ++ commitSep ++ y) = true
  | [], y => by
      apply containsSeq_of_head
      · exact isPrefixOf_append_self commitSep y
      · simp [commitSep]
  | c :: x, y => by
      show containsSeq commitSep (c :: (x ++ commitSep ++ y)) = true
      rw [containsSeq, containsSeq_append_self x y]
      simp

/-- A slash-free string contains no `"/commit/"` occurrence. -/
theorem containsSeq_slashfree : ∀ (h : List Char), '/' ∉ h →
    containsSeq commitSep h = false
  | [], _ => rfl
  | c :: rest, hns => by
      have hc : c ≠ '/' := fun hc => hns (hc ▸ List.mem_cons_self c rest)
      have hbe : ('/' == c) = false := beq_eq_false_iff_ne.2 (Ne.symm hc)
      have hpre : commitSep.isPrefixOf (c :: rest) = false := by
        simp [commitSep, List.isPrefixOf, hbe]
      have hrest : '/' ∉ rest := fun hr => hns (List.mem_cons_of_mem c hr)
      simp [containsSeq, hpre, containsSeq_slashfree rest hrest]

/-- `split("/commit/")` of a string with no occurrence is one piece. -/
theorem splitCommitAux_no_occ : ∀ (l : List Char) (fuel : Nat) (acc : List Char),
    l.length ≤ fuel → containsSeq commitSep l = false →
    splitCommitAux fuel acc l = [acc.reverse ++ l]
  | [], fuel, acc, _, _ => by cases fuel <;> simp [splitCommitAux]
  | c :: rest, fuel, acc, hlen, hocc => by
      cases fuel with
      | zero => simp at hlen
      | succ f =>
          have hpre : commitSep.isPrefixOf (c :: rest) = false := by
            cases hx : commitSep.isPrefixOf (c :: rest) with
            | false => rfl
            | true => rw [containsSeq, hx] at hocc; simp at hocc
          have hrest : containsSeq commitSep rest = false := by
            rw [containsSeq, hpre] at hocc; simpa using hocc
          have hlen' : rest.length ≤ f := by
            simp only [List.length_cons] at hlen; omega
          simp only [splitCommitAux]
          rw [if_neg (by simp [hpre])]
          rw [splitCommitAux_no_occ rest f (c :: acc) hlen' hrest]
          simp

/-- Side condition for parsing `x ++ "/commit/" ++ h`: no occurrence of
the separator begins inside `x` (so the leftmost scan reaches the
explicit separator intact). -/
def noEarlyCommit : List Char → List Char → Bool
  | [], _ => true
  | c :: rest, h =>
      !(commitSep.isPrefixOf (c :: (rest ++ commitSep ++ h))) && noEarlyCommit rest h

/-- `split("/commit/")` of `x ++ "/commit/" ++ h` is `[x, h]` when no
occurrence starts inside `x` and `h` holds none. -/
theorem splitCommitAux_junction : ∀ (x h : List Char) (fuel : Nat) (acc : List Char),
    (x ++ commitSep ++ h).length ≤ fuel →
    noEarlyCommit x h = true → containsSeq commitSep h = false →
    splitCommitAux fuel acc (x ++ commitSep ++ h) = [acc.reverse ++ x, h]
  | [], h, fuel, acc, hlen, _, hocc => by
      cases fuel with
      | zero => simp [commitSep] at hlen
      | succ f =>
          show splitCommitAux (f + 1) acc
              ('/' :: ('c' :: 'o' :: 'm' :: 'm' :: 'i' :: 't' :: '/' :: h)) =
            [acc.reverse ++ [], h]
          have hpre : commitSep.isPrefixOf
              ('/' :: ('c' :: 'o' :: 'm' :: 'm' :: 'i' :: 't' :: '/' :: h)) = true := by
            simp [commitSep, List.isPrefixOf]
          simp only [splitCommitAux]
          rw [if_pos hpre]
          have hdrop : ('c' :: 'o' :: 'm' :: 'm' :: 'i' :: 't' :: '/' :: h).drop 7 = h := rfl
          rw [hdrop]
          have hlen' : h.length ≤ f := by
            simp [commitSep] at hlen
            omega
          rw [splitCommitAux_no_occ h f [] hlen' hocc]
          simp
  | c :: x', h, fuel, acc, hlen, hne, hocc => by
      cases fuel with
      | zero => simp at hlen
      | succ f =>
          have hparts := hne
          simp only [noEarlyCommit, Bool.and_eq_true, Bool.not_eq_true'] at hparts
          have hpre : commitSep.isPrefixOf (c :: (x' ++ commitSep ++ h)) = false :=
            hparts.1
          have hne' : noEarlyCommit x' h = true := hparts.2
          have hlen' : (x' ++ commitSep ++ h).length ≤ f := by
            simp only [List.cons_append, List.length_cons, List.length_append] at hlen ⊢
            omega
          show splitCommitAux (f + 1) acc (c :: (x' ++ commitSep ++ h)) =
            [acc.reverse ++ (c :: x'), h]
          simp only [splitCommitAux]
          rw [if_neg (ne_true_of_eq_false hpre)]
          rw [splitCommitAux_junction x' h f (c :: acc) hlen' hne' hocc]
          simp

/-- Leading slashes are consumed by `dropWhile`. -/
theorem dropWhile_replicate_slash : ∀ (k : Nat) (t : List Char),
    (List.replicate k '/' ++ t).dropWhile (· == '/') = t.dropWhile (· == '/')
  | 0, t => rfl
  | k + 1, t => by
      simp only [List.replicate, List.cons_append, List.dropWhile]
      rw [show (('/' : Char) == '/') = true from by simp]
      exact dropWhile_replicate_slash k t

/-- `rstrip("/")` removes exactly the trailing slash run when the kept
part ends in a non-slash. -/
theorem rstrip_xsep (x h : List Char) (k : Nat) (hne : h ≠ []) (hns : '/' ∉ h) :
    rstripSlash (x ++ commitSep ++ h ++ List.replicate k '/') = x ++ commitSep ++ h := by
  unfold rstripSlash
  rw [List.reverse_append, List.reverse_replicate, dropWhile_replicate_slash,
    List.reverse_append]
  cases hh : h.reverse with
  | nil => exact absurd (List.reverse_eq_nil_iff.mp hh) hne
  | cons hc ht =>
      have hmem : hc ∈ h := by
        have hmem0 : hc ∈ h.reverse := hh ▸ List.mem_cons_self hc ht
        exact List.mem_reverse.mp hmem0
      have hbe : (hc == '/') = false := beq_eq_false_iff_ne.2 (fun he => hns (he ▸ hmem))
      simp only [List.cons_append, List.dropWhile, hbe]
      have hgrp : (hc :: (ht ++ (x ++ commitSep).reverse)) =
          h.reverse ++ (x ++ commitSep).reverse := by
        rw [hh]
        rfl
      show (hc :: (ht ++ (x ++ commitSep).reverse)).reverse = x ++ commitSep ++ h
      rw [hgrp, List.reverse_append, List.reverse_reverse, List.reverse_reverse]

/-- Claim C9 (amended): when no direct strategy succeeds (all six field
paths miss and the `revision`/`source.commit.hash` value is not a
string), the extractor reads the href of `links.commit` if that object
is truthy (non-empty), **otherwise** of `links.html` — a truthy
`links.commit` without an `href` therefore shadows `links.html` (see
the counterexample) — and for an href of the form
`x ++ "/commit/" ++ h` plus optional trailing slashes, with `h`
non-empty and slash-free and no `"/commit/"` occurrence starting
inside `x`, it returns everything after the last `"/commit/"` with
trailing slashes stripped, i.e. `h`; in particular
`links.html.href = ".../commit/deadbeef/"` yields `"deadbeef"` when
`links.commit` is absent. -/
theorem C9_amended (item : JVal) (x h : List Char) (k : Nat)
    (htp : tryPaths item = none)
    (halt : (altOf item).isStr = false)
    (hhref : jget (chosenLinks item) "href" =
      .str (String.mk (x ++ commitSep ++ h ++ List.replicate k '/')))
    (hne : h ≠ []) (hns : '/' ∉ h)
    (hearly : noEarlyCommit x h = true) :
    commitHashFromDeployment item = some (String.mk h) := by
  have hocc : containsSeq commitSep h = false := containsSeq_slashfree h hns
  have hc1 : (String.mk (x ++ commitSep ++ h ++ List.replicate k '/') != "") = true := by
    simp only [bne_iff_ne, ne_eq]
    intro heq
    have hdata : x ++ commitSep ++ h ++ List.replicate k '/' = [] :=
      congrArg String.data heq
    simp [List.append_eq_nil, commitSep] at hdata
  have hc2 : containsSeq commitSep
      (String.mk (x ++ commitSep ++ h ++ List.replicate k '/')).toList = true := by
    show containsSeq commitSep (x ++ commitSep ++ h ++ List.replicate k '/') = true
    rw [List.append_assoc (x ++ commitSep) h (List.replicate k '/')]
    exact containsSeq_append_self x (h ++ List.replicate k '/')
  have hcond : (String.mk (x ++ commitSep ++ h ++ List.replicate k '/') != "" &&
      containsSeq commitSep
        (String.mk (x ++ commitSep ++ h ++ List.replicate k '/')).toList) = true := by
    rw [hc1, hc2]
    rfl
  have hex : hrefExtract (String.mk (x ++ commitSep ++ h ++ List.replicate k '/')) =
      String.mk h := by
    unfold hrefExtract pySplitCommit
    rw [show (String.mk (x ++ commitSep ++ h ++ List.replicate k '/')).toList =
          x ++ commitSep ++ h ++ List.replicate k '/' from rfl]
    rw [rstrip_xsep x h k hne hns]
    rw [splitCommitAux_junction x h (x ++ commitSep ++ h).length [] (le_refl _) hearly hocc]
    rfl
  have hmain : (match jget (chosenLinks item) "href" with
      | .str s =>
          if s != "" && containsSeq commitSep s.toList then some (hrefExtract s) else none
      | _ => none) = some (String.mk h) := by
    rw [hhref]
    show (if String.mk (x ++ commitSep ++ h ++ List.replicate k '/') != "" &&
        containsSeq commitSep
          (String.mk (x ++ commitSep ++ h ++ List.replicate k '/')).toList then
        some (hrefExtract (String.mk (x ++ commitSep ++ h ++ List.replicate k '/')))
      else none) = some (String.mk h)
    rw [if_pos hcond, hex]
  unfold commitHashFromDeployment
  rw [htp]
  cases ha : altOf item with
  | str s => exfalso; rw [ha] at halt; simp [JVal.isStr] at halt
  | null => exact hmain
  | bool b => exact hmain
  | num n => exact hmain
  | obj fs => exact hmain
  | arr es => exact hmain

/-- Witness for `C9_amended`: the spec's own example URL. -/
theorem C9_witness :
    commitHashFromDeployment
      (.obj [("links", .obj [("html", .obj [("href",
        .str "https://bitbucket.org/ws/repo/commits/commit/deadbeef/")])])]) =
      some "deadbeef" :=
  C9_amended
    (.obj [("links", .obj [("html", .obj [("href",
      .str "https://bitbucket.org/ws/repo/commits/commit/deadbeef/")])])])
    ("https://bitbucket.org/ws/repo/commits".toList) ("deadbeef".toList) 1
    rfl rfl rfl (by decide) (by decide) (by decide)

/-- Claim C9, counterexample: a record with no direct commit field,
whose `links.html.href` contains `/commit/deadbeef`, but whose
`links.commit` object is truthy while lacking an `href`: the code
picks `links.commit` (`or` short-circuits on the truthy dict,
main.py 314-316), finds no href, and returns nothing — the claim says
it must return `"deadbeef"`. -/
theorem C9_counterexample :
    commitHashFromDeployment
      (.obj [("links", .obj [("commit", .obj [("name", .str "c")]),
                             ("html", .obj [("href",
                               .str "https://bb/x/commit/deadbeef/")])])]) = none ∧
    containsSeq commitSep "https://bb/x/commit/deadbeef/".toList = true :=
  ⟨rfl, by decide⟩
